import Mathlib

/-!
Verification of the pypco generator (`tools/pypco_generator.py`).

The file embeds the generator's pure core: the documentation-graph
reducer inside `generate` (vertex pass, description dictionary, edge
pass), the app resolver `url_split[url_split.index('v2') - 1]`, the
per-vertex endpoint derivation
`'' if path[-1] == 'v2' else path[path.index('v2') + 1]`,
and the name formatter `_underscore_to_camelcase`.

Modelling conventions:
* Python exceptions (`IndexError`, `ValueError`, `KeyError`) are
  modelled by `Option`/`none`: a `none` result means the Python code
  raises at that point instead of returning a value.
* HTTP transport and JSON parsing are abstracted into a total fetch
  capability `String → VertexDoc` (the code parses the response body
  regardless of status, so fetching always yields a document here),
  and template rendering into total render capabilities; both are
  parameters of `generate`.
* `Char.toUpper` models Python's `str.upper` on one character; both
  map `a`–`z` to `A`–`Z` and the claims only concern such characters.
* File writes are recorded as events in a trace so that the order of
  output-file writes relative to failures is visible.
-/

namespace Pypco

/-- A vertex stub as listed in the root document:
`doc_json['data']['relationships']['vertices']['data']`, with
`vertex['id']` and `vertex['attributes']['name']`. -/
structure VertexStub where
  id : String
  name : String
  deriving DecidableEq, Repr

/-- A fetched per-vertex document: `vertex_json['data']['id']`,
`vertex_json['data']['attributes']['path']` and
`vertex_json['data']['attributes']['description']`. -/
structure VertexDoc where
  id : String
  path : String
  description : String
  deriving DecidableEq, Repr

/-- An outbound edge of the entry vertex: `edge['attributes']['name']`
and `edge['relationships']['head']['data']['id']`. -/
structure Edge where
  name : String
  headId : String
  deriving DecidableEq, Repr

/-- The root document, reduced to the two fields `generate` reads:
the vertex stubs and the entry vertex's outbound edges. -/
structure RootDoc where
  vertices : List VertexStub
  outboundEdges : List Edge
  deriving DecidableEq, Repr

/-- One element of the `models` list built by `generate`. -/
structure ModelSpec where
  name : String
  endpoint : String
  description : String
  deriving DecidableEq, Repr

/-- One element of the `endpoints` list built by `generate`. -/
structure EndpointSpec where
  name : String
  description : String
  deriving DecidableEq, Repr

/-- Python `str.split(sep)` for a one-character separator, on the
character list: split at every occurrence of `sep`; adjacent
separators yield empty fields and the result always has one more
field than there are separators (so it is never empty). -/
def splitChar (sep : Char) : List Char → List (List Char)
  | [] => [[]]
  | c :: r =>
    if c = sep then [] :: splitChar sep r
    else match splitChar sep r with
      | [] => [[c]]
      | g :: gs => (c :: g) :: gs

/-- Python `str.split(sep)` for a one-character separator, at the
string level. -/
def pySplit (s : String) (sep : Char) : List String :=
  (splitChar sep s.toList).map fun g => String.mk g

/-- Python `str.replace(a, b)` for one-character pattern and
replacement: replace every occurrence. -/
def pyReplace (s : String) (a b : Char) : String :=
  String.mk (s.toList.map fun c => if c = a then b else c)

/-- Python `list.index`: index of the first occurrence, `none` for the
`ValueError` raised when the element is absent. -/
def listIndex {α : Type} [DecidableEq α] (x : α) : List α → Option Nat
  | [] => none
  | a :: r => if a = x then some 0 else (listIndex x r).map (· + 1)

/-- Python list indexing `xs[i]` with negative-index semantics:
`xs[i]` is `xs[len(xs)+i]` for negative `i`; out of range raises
`IndexError` (modelled as `none`). -/
def pyGet {α : Type} (xs : List α) (i : Int) : Option α :=
  if i < 0 then
    if (-i).toNat ≤ xs.length then xs[(xs.length - (-i).toNat)]? else none
  else xs[i.toNat]?

/-- The app resolver inside `generate`:
`url_split = doc_url.split('/'); app = url_split[url_split.index('v2') - 1]`.
`none` models the `ValueError` from `index` when `'v2'` is absent. -/
def resolveApp (doc_url : String) : Option String :=
  let url_split := pySplit doc_url '/'
  match listIndex "v2" url_split with
  | none => none
  | some i => pyGet url_split ((i : Int) - 1)

/-- The endpoint derivation applied to the split vertex path:
`'' if path[-1] == 'v2' else path[path.index('v2') + 1]`.
`none` models `IndexError`/`ValueError` on that expression. -/
def pathEndpoint (path : List String) : Option String :=
  match path.getLast? with
  | none => none
  | some lastSeg =>
    if lastSeg = "v2" then some ""
    else match listIndex "v2" path with
      | none => none
      | some i => path[(i + 1)]?

/-- Endpoint derivation for a fetched vertex document: split its
`path` attribute on `'/'` and apply `pathEndpoint`. -/
def vertexEndpoint (doc : VertexDoc) : Option String :=
  pathEndpoint (pySplit doc.path '/')

/-- Python dict assignment `m[k] = v` on the description dictionary. -/
def dictInsert (m : String → Option String) (k v : String) : String → Option String :=
  fun q => if q = k then some v else m q

/-- The model entry `generate` appends for one non-organization vertex
stub, described in terms of the fetched document; the `getD ""` is
only the total-function rendering of a value that is always present
on a successful run. -/
def modelOf (fetch : String → VertexDoc) (v : VertexStub) : ModelSpec :=
  { name := v.name
    endpoint := (vertexEndpoint (fetch v.id)).getD ""
    description := (fetch v.id).description }

/-- The vertex pass of `generate`: walk the stub list in order, skip
`organization`, fetch each vertex document, append a model entry and
record the description under the fetched document's id.  `none`
models an exception escaping the loop. -/
def processVertices (fetch : String → VertexDoc) :
    List VertexStub → List ModelSpec → (String → Option String) →
    Option (List ModelSpec × (String → Option String))
  | [], ms, dict => some (ms, dict)
  | v :: rest, ms, dict =>
    if v.id = "organization" then processVertices fetch rest ms dict
    else
      match vertexEndpoint (fetch v.id) with
      | none => none
      | some ep =>
        processVertices fetch rest
          (ms ++ [{ name := v.name, endpoint := ep,
                    description := (fetch v.id).description }])
          (dictInsert dict (fetch v.id).id (fetch v.id).description)

/-- One structural rendering of the `while True` loop of
`_underscore_to_camelcase`: repeatedly find the first occurrence of
the delimiter, delete it, and uppercase the character that moved into
its place.  The `ValueError` from `index` ends the loop normally; the
`IndexError` from reading past the end (the delimiter was the final
character) is uncaught (`none`).  The `fuel` argument only makes the
recursion structural: every iteration deletes one list element, so
the loop runs at most `s.length` times and the fuel-exhausted base
case is unreachable when the loop is started with `fuel = s.length`
(as `camelLoop` does; the base case mirrors the loop ending with the
list unchanged, which at that point can only be the empty list). -/
def camelLoopAux (d : Char) : Nat → List Char → Option (List Char)
  | 0, s => some s
  | fuel + 1, s =>
    match listIndex d s with
    | none => some s
    | some i =>
      match (s.eraseIdx i)[i]? with
      | none => none
      | some c => camelLoopAux d fuel ((s.eraseIdx i).set i (Char.toUpper c))

/-- The `while True` loop of `_underscore_to_camelcase`, started on
the character list `s`. -/
def camelLoop (d : Char) (s : List Char) : Option (List Char) :=
  camelLoopAux d s.length s

/-- The body of `_underscore_to_camelcase` on the character list: uppercase the
first character (`IndexError`, i.e. `none`, on the empty string),
then run the delimiter loop. -/
def camelList (s : List Char) (d : Char) : Option (List Char) :=
  match s with
  | [] => none
  | c :: r => camelLoop d (Char.toUpper c :: r)

/-- The formatter `_underscore_to_camelcase(underscore_str, repl_char)` at the
string level; `none` models an uncaught exception. -/
def underscore_to_camelcase (s : String) (d : Char := '_') : Option String :=
  (camelList s.toList d).map fun l => String.mk l

/-- The endpoint entry `generate` appends for one non-organization
edge, as a total function; the `getD`s only stand for values present
on a successful run. -/
def endpointOf (dict : String → Option String) (e : Edge) : EndpointSpec :=
  { name := (underscore_to_camelcase e.name '_').getD ""
    description := (dict e.headId).getD "" }

/-- The edge pass of `generate`: walk the entry vertex's outbound
edges in order, skip edges whose head is `organization`, format the
edge name, and look the description up in the dictionary built by the
vertex pass (`KeyError`, i.e. `none`, when absent). -/
def processEdges (dict : String → Option String) :
    List Edge → List EndpointSpec → Option (List EndpointSpec)
  | [], eps => some eps
  | e :: rest, eps =>
    if e.headId = "organization" then processEdges dict rest eps
    else
      match underscore_to_camelcase e.name '_' with
      | none => none
      | some nm =>
        match dict e.headId with
        | none => none
        | some desc => processEdges dict rest (eps ++ [{ name := nm, description := desc }])

/-- An observable side effect of `generate`: writing one output file. -/
inductive Event where
  | writeFile (path : String) (content : String)
  deriving DecidableEq, Repr

/-- The function `generate`, with HTTP fetch and template rendering abstracted as
capabilities and file writes recorded as a trace.  The returned
`Bool` is `true` on normal completion and `false` when an exception
escapes; the trace lists the writes performed before that point, in
order: the model file is written after the vertex pass and before the
edge pass, the endpoint file after the edge pass. -/
def generate (fetch : String → VertexDoc)
    (renderModels : String → List ModelSpec → String)
    (renderEndpoints : String → List EndpointSpec → String)
    (sep : String) (doc_url endpoint_path model_path : String)
    (root : RootDoc) : List Event × Bool :=
  match resolveApp doc_url with
  | none => ([], false)
  | some app =>
    match processVertices fetch root.vertices [] (fun _ => none) with
    | none => ([], false)
    | some (models, dict) =>
      match underscore_to_camelcase app '-' with
      | none => ([], false)
      | some appCamel =>
        let modelWrite := Event.writeFile
          (model_path ++ sep ++ pyReplace app '-' '_' ++ ".py")
          (renderModels appCamel models)
        match processEdges dict root.outboundEdges [] with
        | none => ([modelWrite], false)
        | some endpoints =>
          ([modelWrite,
            Event.writeFile
              (endpoint_path ++ sep ++ pyReplace app '-' '_' ++ ".py")
              (renderEndpoints appCamel endpoints)], true)

/-- Spec-side pascal-case: the first character and each character
following a delimiter occurrence are uppercased, and all delimiter
characters are removed.  The `Bool` flag records whether the next
character must be uppercased (start of string, or just after a
delimiter). -/
def pascalSpec (d : Char) : Bool → List Char → List Char
  | _, [] => []
  | up, c :: r =>
    if c = d then pascalSpec d true r
    else (if up then Char.toUpper c else c) :: pascalSpec d false r

/-- A concrete fetch capability for the example graph used to
exercise the theorems below: every id resolves to one vertex
document. -/
def wfetch : String → VertexDoc :=
  fun _ => { id := "a", path := "x/v2/people", description := "A person" }

/-- Example vertex stubs: one ordinary vertex followed by the
excluded `organization` vertex. -/
def wstubs : List VertexStub :=
  [{ id := "a", name := "People" }, { id := "organization", name := "Org" }]

/-- The model list the vertex pass produces on the example graph. -/
def wmodels : List ModelSpec :=
  [{ name := "People", endpoint := "people", description := "A person" }]

/-- The description dictionary the vertex pass produces on the
example graph. -/
def wdict : String → Option String :=
  dictInsert (fun _ => none) "a" "A person"

/-- Example outbound edges of the entry vertex. -/
def wedges : List Edge := [{ name := "list_people", headId := "a" }]

/-- The endpoint list the edge pass produces on the example edges. -/
def weps : List EndpointSpec := [{ name := "ListPeople", description := "A person" }]

/-- Indices returned by `listIndex` lie inside the list. -/
theorem listIndex_lt_length {α : Type} [DecidableEq α] {x : α} :
    ∀ {l : List α} {i : Nat}, listIndex x l = some i → i < l.length := by
  intro l
  induction l with
  | nil => intro i h; simp [listIndex] at h
  | cons a r ih =>
    intro i h
    simp only [listIndex] at h
    by_cases hax : a = x
    · rw [if_pos hax] at h
      injection h with h
      subst h
      simp
    · rw [if_neg hax] at h
      cases hj : listIndex x r with
      | none => rw [hj] at h; simp at h
      | some j =>
        rw [hj] at h
        simp at h
        have := ih hj
        simp only [List.length_cons]
        omega

/-- When the delimiter does not occur, the loop ends at once with the
list unchanged, whatever the fuel. -/
theorem camelLoopAux_of_none {d : Char} {s : List Char}
    (h : listIndex d s = none) : ∀ fuel, camelLoopAux d fuel s = some s := by
  intro fuel
  cases fuel with
  | zero => rfl
  | succ n => rw [camelLoopAux, h]

/-- Any fuel of at least the list length runs the loop to its real
end: each iteration deletes one element, so the length always bounds
the remaining iteration count. -/
theorem camelLoopAux_fuel {d : Char} :
    ∀ (fuel : Nat) (s : List Char), s.length ≤ fuel →
      camelLoopAux d fuel s = camelLoop d s := by
  intro fuel
  induction fuel with
  | zero =>
    intro s hs
    have : s = [] := List.eq_nil_of_length_eq_zero (Nat.le_zero.mp hs)
    subst this
    rfl
  | succ n ih =>
    intro s hs
    rw [camelLoopAux]
    cases hidx : listIndex d s with
    | none => rw [camelLoop, camelLoopAux_of_none hidx]
    | some i =>
      dsimp only
      have hi : i < s.length := listIndex_lt_length hidx
      obtain ⟨m, hm⟩ : ∃ m, s.length = m + 1 := ⟨s.length - 1, by omega⟩
      rw [camelLoop, hm, camelLoopAux, hidx]
      dsimp only
      cases hget : (s.eraseIdx i)[i]? with
      | none => rfl
      | some c =>
        dsimp only
        have hlen : ((s.eraseIdx i).set i (Char.toUpper c)).length = m := by
          rw [List.length_set, List.length_eraseIdx, if_pos hi]
          omega
        have hle : ((s.eraseIdx i).set i (Char.toUpper c)).length ≤ n := by omega
        rw [ih _ hle, camelLoop, hlen]

/-- The loop on the empty list ends at once. -/
theorem camelLoop_nil (d : Char) : camelLoop d [] = some [] := rfl

/-- A delimiter as the final remaining character: the deletion leaves
the index pointing past the end, and the uppercase step raises an
uncaught `IndexError`. -/
theorem camelLoop_delim_last (d : Char) : camelLoop d [d] = none := by
  have h0 : listIndex d [d] = some 0 := by simp [listIndex]
  rw [camelLoop]
  show camelLoopAux d (0 + 1) [d] = none
  rw [camelLoopAux, h0]
  rfl

/-- One loop iteration at a delimiter in head position: delete it and
uppercase the character that follows. -/
theorem camelLoop_delim_cons (d x : Char) (r : List Char) :
    camelLoop d (d :: x :: r) = camelLoop d (Char.toUpper x :: r) := by
  have h0 : listIndex d (d :: x :: r) = some 0 := by simp [listIndex]
  rw [camelLoop, camelLoop]
  simp only [List.length_cons]
  rw [camelLoopAux, h0]
  simp only [List.eraseIdx_cons_zero, List.getElem?_cons_zero, List.set_cons_zero]

/-- The loop never touches a non-delimiter head character: running it
on `c :: r` with `c ≠ d` is running it on `r` below the unchanged
head. -/
theorem camelLoop_cons_ne (d c : Char) (hcd : c ≠ d) (r : List Char) :
    camelLoop d (c :: r) = (camelLoop d r).map (fun t => c :: t) := by
  generalize hn : r.length = n
  induction n using Nat.strong_induction_on generalizing r with
  | _ n ih =>
    have hcons : listIndex d (c :: r) = (listIndex d r).map (· + 1) := by
      simp [listIndex, hcd]
    rw [camelLoop]
    simp only [List.length_cons, hn]
    rw [camelLoopAux, hcons]
    cases hidx : listIndex d r with
    | none =>
      rw [camelLoop, camelLoopAux_of_none hidx]
      rfl
    | some j =>
      have hj : j < r.length := listIndex_lt_length hidx
      dsimp only [Option.map_some']
      rw [List.eraseIdx_cons_succ, List.getElem?_cons_succ]
      obtain ⟨m, hm⟩ : ∃ m, r.length = m + 1 := ⟨r.length - 1, by omega⟩
      rw [camelLoop, hm, camelLoopAux, hidx]
      dsimp only
      cases hget : (r.eraseIdx j)[j]? with
      | none => rfl
      | some x =>
        dsimp only
        rw [List.set_cons_succ]
        have hlen : ((r.eraseIdx j).set j (Char.toUpper x)).length = m := by
          rw [List.length_set, List.length_eraseIdx, if_pos hj]
          omega
        have hLHS : n = ((r.eraseIdx j).set j (Char.toUpper x)).length + 1 := by
          omega
        rw [hLHS]
        have hcm : m = ((r.eraseIdx j).set j (Char.toUpper x)).length := hlen.symm
        rw [hcm]
        have hrec := ih ((r.eraseIdx j).set j (Char.toUpper x)).length
          (by omega) ((r.eraseIdx j).set j (Char.toUpper x)) rfl
        calc camelLoopAux d (((r.eraseIdx j).set j (Char.toUpper x)).length + 1)
              (c :: (r.eraseIdx j).set j (Char.toUpper x))
            = camelLoop d (c :: (r.eraseIdx j).set j (Char.toUpper x)) := by
              rw [camelLoop, List.length_cons]
          _ = (camelLoop d ((r.eraseIdx j).set j (Char.toUpper x))).map
              (fun t => c :: t) := hrec
          _ = (camelLoopAux d ((r.eraseIdx j).set j (Char.toUpper x)).length
              ((r.eraseIdx j).set j (Char.toUpper x))).map (fun t => c :: t) := by
              rw [camelLoop]

/-- Uppercasing a character yields `'_'` only for `'_'` itself. -/
theorem toUpper_eq_underscore (c : Char) : Char.toUpper c = '_' ↔ c = '_' := by
  constructor
  · intro h
    simp only [Char.toUpper] at h
    split at h
    next hc =>
      exfalso
      obtain ⟨h1, h2⟩ := hc
      obtain ⟨n, hn⟩ : ∃ n, Char.toNat c = n := ⟨_, rfl⟩
      rw [hn] at h h1 h2
      interval_cases n <;> exact absurd h (by decide)
    next hc => exact h
  · intro h
    subst h
    decide

/-- Uppercasing a character yields `'-'` only for `'-'` itself. -/
theorem toUpper_eq_dash (c : Char) : Char.toUpper c = '-' ↔ c = '-' := by
  constructor
  · intro h
    simp only [Char.toUpper] at h
    split at h
    next hc =>
      exfalso
      obtain ⟨h1, h2⟩ := hc
      obtain ⟨n, hn⟩ : ∃ n, Char.toNat c = n := ⟨_, rfl⟩
      rw [hn] at h h1 h2
      interval_cases n <;> exact absurd h (by decide)
    next hc => exact h
  · intro h
    subst h
    decide

/-- Uppercasing ahead of the recursion agrees with `pascalSpec`'s
uppercase-next flag, for a delimiter that is not the uppercase form
of any other character. -/
theorem pascalSpec_upper_cons (d : Char) (hd : ∀ a, Char.toUpper a = d ↔ a = d)
    (x : Char) (r : List Char) :
    pascalSpec d false (Char.toUpper x :: r) = pascalSpec d true (x :: r) := by
  by_cases hx : x = d
  · have h2 : Char.toUpper x = d := by rw [hx]; exact (hd d).mpr rfl
    conv_lhs => rw [pascalSpec]
    conv_rhs => rw [pascalSpec]
    rw [if_pos h2, if_pos hx]
  · have h2 : ¬ Char.toUpper x = d := fun hcontra => hx ((hd x).mp hcontra)
    conv_lhs => rw [pascalSpec]
    conv_rhs => rw [pascalSpec]
    rw [if_neg h2, if_neg hx]
    simp

/-- The delimiter loop computes spec pascal-case (with no pending
uppercase at the head), on every list whose final character is not
the delimiter — exactly the lists on which the loop cannot run into
its uncaught `IndexError`. -/
theorem camelLoop_pascalSpec (d : Char) (hd : ∀ a, Char.toUpper a = d ↔ a = d) :
    ∀ s : List Char, s.getLast? ≠ some d →
      camelLoop d s = some (pascalSpec d false s) := by
  intro s
  generalize hn : s.length = n
  induction n using Nat.strong_induction_on generalizing s with
  | _ n ih =>
    intro hlast
    match s with
    | [] => rw [camelLoop_nil]; rfl
    | c :: r =>
      by_cases hc : c = d
      · rw [hc] at hlast ⊢
        match r with
        | [] =>
          exact absurd (by simp) hlast
        | x :: r2 =>
          rw [camelLoop_delim_cons]
          have hlast2 : (Char.toUpper x :: r2).getLast? ≠ some d := by
            match r2 with
            | [] =>
              intro hcontra
              simp only [List.getLast?_singleton, Option.some.injEq] at hcontra
              have hx : x = d := (hd x).mp hcontra
              exact hlast (by simp [List.getLast?_cons_cons, hx])
            | y :: t =>
              rw [List.getLast?_cons_cons]
              rw [List.getLast?_cons_cons, List.getLast?_cons_cons] at hlast
              exact hlast
          have hlen : (Char.toUpper x :: r2).length < n := by
            simp only [List.length_cons] at hn ⊢
            omega
          rw [ih _ hlen _ rfl hlast2, pascalSpec_upper_cons d hd]
          conv_rhs => rw [pascalSpec, if_pos rfl]
      · rw [camelLoop_cons_ne d c hc]
        have hgl : r.getLast? ≠ some d ∨ r = [] := by
          match r with
          | [] => exact Or.inr rfl
          | y :: t =>
            rw [List.getLast?_cons_cons] at hlast
            exact Or.inl hlast
        cases hgl with
        | inr hr =>
          subst hr
          rw [camelLoop_nil]
          simp [pascalSpec, hc]
        | inl hr =>
          have hlen : r.length < n := by
            simp only [List.length_cons] at hn
            omega
          rw [ih _ hlen _ rfl hr]
          simp [pascalSpec, hc]

/-- The loop of `_underscore_to_camelcase` on a nonempty list whose
final character is not the delimiter computes spec pascal-case with
the first character uppercased. -/
theorem camelList_pascalSpec (d : Char) (hd : ∀ a, Char.toUpper a = d ↔ a = d)
    (s : List Char) (hne : s ≠ []) (hlast : s.getLast? ≠ some d) :
    camelList s d = some (pascalSpec d true s) := by
  match s with
  | [] => exact absurd rfl hne
  | c :: r =>
    rw [camelList]
    have hlast2 : (Char.toUpper c :: r).getLast? ≠ some d := by
      match r with
      | [] =>
        intro hcontra
        simp only [List.getLast?_singleton, Option.some.injEq] at hcontra
        have hx : c = d := (hd c).mp hcontra
        exact hlast (by simp [hx])
      | y :: t =>
        rw [List.getLast?_cons_cons]
        rw [List.getLast?_cons_cons] at hlast
        exact hlast
    rw [camelLoop_pascalSpec d hd _ hlast2, pascalSpec_upper_cons d hd]

/-- Characterization of the vertex pass: on success, the produced
model list is the accumulator followed by one `modelOf` entry per
non-organization stub, in the stubs' declaration order. -/
theorem processVertices_models (fetch : String → VertexDoc) :
    ∀ (vs : List VertexStub) (ms0 : List ModelSpec) (d0 : String → Option String)
      (ms : List ModelSpec) (dict : String → Option String),
      processVertices fetch vs ms0 d0 = some (ms, dict) →
      ms = ms0 ++ (vs.filter fun v => v.id != "organization").map (modelOf fetch) := by
  intro vs
  induction vs with
  | nil =>
    intro ms0 d0 ms dict h
    rw [processVertices] at h
    injection h with h
    have h1 : ms0 = ms := congrArg Prod.fst h
    rw [← h1]
    simp
  | cons v rest ih =>
    intro ms0 d0 ms dict h
    rw [processVertices] at h
    by_cases hv : v.id = "organization"
    · rw [if_pos hv] at h
      rw [ih _ _ _ _ h]
      simp [List.filter_cons, hv]
    · rw [if_neg hv] at h
      cases he : vertexEndpoint (fetch v.id) with
      | none => rw [he] at h; exact absurd h (by simp)
      | some ep =>
        rw [he] at h
        rw [ih _ _ _ _ h]
        have hfil : (v :: rest).filter (fun v => v.id != "organization") =
            v :: rest.filter (fun v => v.id != "organization") := by
          simp [List.filter_cons, hv]
        rw [hfil]
        simp [modelOf, he, List.append_assoc]

/-- Characterization of the description dictionary built by the
vertex pass: every entry is the description of a fetched document of
some non-organization stub, keyed by that document's id (unless it
was already in the starting dictionary). -/
theorem processVertices_dict (fetch : String → VertexDoc) :
    ∀ (vs : List VertexStub) (ms0 : List ModelSpec) (d0 : String → Option String)
      (ms : List ModelSpec) (dict : String → Option String),
      processVertices fetch vs ms0 d0 = some (ms, dict) →
      ∀ k val, dict k = some val →
        d0 k = some val ∨
        ∃ v ∈ vs, v.id ≠ "organization" ∧ (fetch v.id).id = k ∧
          (fetch v.id).description = val := by
  intro vs
  induction vs with
  | nil =>
    intro ms0 d0 ms dict h k val hk
    rw [processVertices] at h
    injection h with h
    have h2 : d0 = dict := congrArg Prod.snd h
    rw [← h2] at hk
    exact Or.inl hk
  | cons v rest ih =>
    intro ms0 d0 ms dict h k val hk
    rw [processVertices] at h
    by_cases hv : v.id = "organization"
    · rw [if_pos hv] at h
      cases ih _ _ _ _ h k val hk with
      | inl h0 => exact Or.inl h0
      | inr hex =>
        obtain ⟨w, hw, hprop⟩ := hex
        exact Or.inr ⟨w, List.mem_cons_of_mem v hw, hprop⟩
    · rw [if_neg hv] at h
      cases he : vertexEndpoint (fetch v.id) with
      | none => rw [he] at h; exact absurd h (by simp)
      | some ep =>
        rw [he] at h
        cases ih _ _ _ _ h k val hk with
        | inl h0 =>
          rw [dictInsert] at h0
          by_cases hkey : k = (fetch v.id).id
          · rw [if_pos hkey] at h0
            injection h0 with h0
            exact Or.inr ⟨v, List.mem_cons_self v rest, hv, hkey.symm, h0⟩
          · rw [if_neg hkey] at h0
            exact Or.inl h0
        | inr hex =>
          obtain ⟨w, hw, hprop⟩ := hex
          exact Or.inr ⟨w, List.mem_cons_of_mem v hw, hprop⟩

/-- Characterization of the edge pass: on success, the produced
endpoint list is the accumulator followed by one `endpointOf` entry
per non-organization edge, in the edges' declaration order. -/
theorem processEdges_eq (dict : String → Option String) :
    ∀ (es : List Edge) (eps0 eps : List EndpointSpec),
      processEdges dict es eps0 = some eps →
      eps = eps0 ++ (es.filter fun e => e.headId != "organization").map (endpointOf dict) := by
  intro es
  induction es with
  | nil =>
    intro eps0 eps h
    rw [processEdges] at h
    injection h with h
    rw [← h]
    simp
  | cons e rest ih =>
    intro eps0 eps h
    rw [processEdges] at h
    by_cases hv : e.headId = "organization"
    · rw [if_pos hv] at h
      rw [ih _ _ h]
      simp [List.filter_cons, hv]
    · rw [if_neg hv] at h
      cases hc : underscore_to_camelcase e.name '_' with
      | none => rw [hc] at h; exact absurd h (by simp)
      | some nm =>
        rw [hc] at h
        cases hdsc : dict e.headId with
        | none => rw [hdsc] at h; exact absurd h (by simp)
        | some desc =>
          rw [hdsc] at h
          rw [ih _ _ h]
          have hfil : (e :: rest).filter (fun e => e.headId != "organization") =
              e :: rest.filter (fun e => e.headId != "organization") := by
            simp [List.filter_cons, hv]
          rw [hfil]
          simp [endpointOf, hc, hdsc, List.append_assoc]

/-- If any non-organization edge's head id is missing from the
dictionary, the edge pass raises (`KeyError`), producing no list. -/
theorem processEdges_missing (dict : String → Option String) :
    ∀ (es : List Edge) (eps0 : List EndpointSpec),
      (∃ e ∈ es, e.headId ≠ "organization" ∧ dict e.headId = none) →
      processEdges dict es eps0 = none := by
  intro es
  induction es with
  | nil =>
    intro eps0 hex
    obtain ⟨e, he, _⟩ := hex
    exact absurd he (List.not_mem_nil e)
  | cons e rest ih =>
    intro eps0 hex
    rw [processEdges]
    obtain ⟨w, hw, hworg, hwnone⟩ := hex
    by_cases hv : e.headId = "organization"
    · rw [if_pos hv]
      rcases List.mem_cons.mp hw with hwe | hwr
      · subst hwe
        exact absurd hv hworg
      · exact ih _ ⟨w, hwr, hworg, hwnone⟩
    · rw [if_neg hv]
      cases hc : underscore_to_camelcase e.name '_' with
      | none => rfl
      | some nm =>
        rcases List.mem_cons.mp hw with hwe | hwr
        · subst hwe
          rw [hwnone]
        · cases hdsc : dict e.headId with
          | none => rfl
          | some desc => exact ih _ ⟨w, hwr, hworg, hwnone⟩

/-- An index returned by `listIndex` holds the element looked for. -/
theorem listIndex_get {α : Type} [DecidableEq α] {x : α} :
    ∀ {l : List α} {i : Nat}, listIndex x l = some i → l[i]? = some x := by
  intro l
  induction l with
  | nil => intro i h; simp [listIndex] at h
  | cons a r ih =>
    intro i h
    simp only [listIndex] at h
    by_cases hax : a = x
    · rw [if_pos hax] at h
      injection h with h
      subst h
      rw [List.getElem?_cons_zero, hax]
    · rw [if_neg hax] at h
      cases hj : listIndex x r with
      | none => rw [hj] at h; simp at h
      | some j =>
        rw [hj] at h
        simp only [Option.map_some', Option.some.injEq] at h
        subst h
        rw [List.getElem?_cons_succ]
        exact ih hj

/-- Failure of `listIndex` (Python `ValueError`) happens exactly when the element
does not occur. -/
theorem listIndex_eq_none_iff {α : Type} [DecidableEq α] {x : α} :
    ∀ {l : List α}, listIndex x l = none ↔ ¬ x ∈ l := by
  intro l
  induction l with
  | nil => simp [listIndex]
  | cons a r ih =>
    simp only [listIndex]
    by_cases hax : a = x
    · rw [if_pos hax]
      simp [hax]
    · rw [if_neg hax]
      cases hj : listIndex x r with
      | none =>
        simp only [Option.map_none']
        have hr : ¬ x ∈ r := ih.mp hj
        have hxa : ¬ x = a := fun hcontra => hax hcontra.symm
        simp [List.mem_cons, hr, hxa]
      | some j =>
        simp only [Option.map_some']
        have hr : x ∈ r := by
          have hg := listIndex_get hj
          obtain ⟨hlt, hEq⟩ := List.getElem?_eq_some.mp hg
          rw [← hEq]
          exact List.getElem_mem hlt
        simp [List.mem_cons, hr]

/-- A successful edge pass looked every non-organization edge's head
up in the dictionary and found it. -/
theorem processEdges_success_dict (dict : String → Option String) :
    ∀ (es : List Edge) (eps0 eps : List EndpointSpec),
      processEdges dict es eps0 = some eps →
      ∀ e ∈ es, e.headId ≠ "organization" → ∃ dsc, dict e.headId = some dsc := by
  intro es
  induction es with
  | nil =>
    intro eps0 eps h e he
    exact absurd he (List.not_mem_nil e)
  | cons e0 rest ih =>
    intro eps0 eps h e he horg
    rw [processEdges] at h
    by_cases hv : e0.headId = "organization"
    · rw [if_pos hv] at h
      rcases List.mem_cons.mp he with hee | her
      · subst hee
        exact absurd hv horg
      · exact ih _ _ h e her horg
    · rw [if_neg hv] at h
      cases hc : underscore_to_camelcase e0.name '_' with
      | none => rw [hc] at h; exact absurd h (by simp)
      | some nm =>
        rw [hc] at h
        cases hdsc : dict e0.headId with
        | none => rw [hdsc] at h; exact absurd h (by simp)
        | some desc =>
          rw [hdsc] at h
          rcases List.mem_cons.mp he with hee | her
          · subst hee
            exact ⟨desc, hdsc⟩
          · exact ih _ _ h e her horg

/-- Python indexing at a nonnegative index is plain list indexing. -/
theorem pyGet_natCast {α : Type} (xs : List α) (i : Nat) :
    pyGet xs (i : Int) = xs[i]? := by
  rw [pyGet, if_neg (Int.not_lt.mpr (Int.natCast_nonneg i)), Int.toNat_natCast]

/-- Python indexing at `-1` on a nonempty list reads the final
element. -/
theorem pyGet_neg_one {α : Type} (xs : List α) (h : 0 < xs.length) :
    pyGet xs (-1) = xs[(xs.length - 1)]? := by
  rw [pyGet, if_pos (by decide)]
  have h1 : (-(-1 : Int)).toNat = 1 := by decide
  rw [h1, if_pos (show 1 ≤ xs.length by omega)]

/-- After a successful `index('v2')`, the expression
`url_split[url_split.index('v2') - 1]` always yields a value: index
`0` wraps around to the final element, any other index reads the
preceding element. -/
theorem pyGet_pred_isSome {α : Type} {xs : List α} {i : Nat}
    (hi : i < xs.length) : ∃ z, pyGet xs ((i : Int) - 1) = some z := by
  cases i with
  | zero =>
    have h0 : ((0 : Nat) : Int) - 1 = -1 := by decide
    rw [h0, pyGet_neg_one xs (by omega)]
    exact ⟨_, List.getElem?_eq_getElem (by omega)⟩
  | succ j =>
    have h0 : ((j + 1 : Nat) : Int) - 1 = (j : Int) := by push_cast; ring
    rw [h0, pyGet_natCast]
    exact ⟨_, List.getElem?_eq_getElem (by omega)⟩

/-- C1 (counterexample to the claim as stated): for the vertex path
`a/v2/b/v2` there is a segment (`b`) immediately after the first
occurrence of `v2`, yet the derived endpoint is the empty string,
because the code tests only whether the final segment is `v2`. -/
theorem claim_C1_counterexample :
    vertexEndpoint { id := "b", path := "a/v2/b/v2", description := "d" } = some "" ∧
    listIndex "v2" (pySplit "a/v2/b/v2" '/') = some 1 ∧
    (pySplit "a/v2/b/v2" '/')[1 + 1]? = some "b" ∧
    vertexEndpoint { id := "b", path := "a/v2/b/v2", description := "d" } ≠ some "b" :=
  ⟨by decide, by decide, by decide, by decide⟩

/-- C1 (amended): if the split path's final segment is `v2` the
derived endpoint is the empty string; otherwise, when `v2` occurs at
first index `i`, the endpoint is the segment at `i + 1`, which
exists. -/
theorem claim_C1 (doc : VertexDoc) :
    ((pySplit doc.path '/').getLast? = some "v2" → vertexEndpoint doc = some "") ∧
    ((pySplit doc.path '/').getLast? ≠ some "v2" →
      ∀ i, listIndex "v2" (pySplit doc.path '/') = some i →
        vertexEndpoint doc = (pySplit doc.path '/')[i + 1]? ∧
        ((pySplit doc.path '/')[i + 1]?).isSome) := by
  constructor
  · intro hlast
    rw [vertexEndpoint, pathEndpoint, hlast]
    dsimp only
    rw [if_pos rfl]
  · intro hlast i hidx
    have hi := listIndex_lt_length hidx
    have hgv2 := listIndex_get hidx
    have hne : i + 1 ≠ (pySplit doc.path '/').length := by
      intro hcontra
      apply hlast
      rw [List.getLast?_eq_getElem?]
      have heq : (pySplit doc.path '/').length - 1 = i := by omega
      rw [heq]
      exact hgv2
    have hlt : i + 1 < (pySplit doc.path '/').length := by omega
    constructor
    · rw [vertexEndpoint, pathEndpoint]
      obtain ⟨z, hz⟩ : ∃ z, (pySplit doc.path '/').getLast? = some z := by
        rw [List.getLast?_eq_getElem?]
        exact ⟨_, List.getElem?_eq_getElem (by omega)⟩
      rw [hz]
      dsimp only
      have hzne : z ≠ "v2" := fun hcontra => hlast (by rw [hz, hcontra])
      rw [if_neg hzne, hidx]
    · rw [List.getElem?_eq_getElem hlt]
      rfl

/-- C1 witness: the vertex path `x/v2/people` has `v2` at index 1
and derives endpoint segment index 2 (`people`). -/
theorem claim_C1_witness :
    vertexEndpoint { id := "a", path := "x/v2/people", description := "A person" } =
      (pySplit "x/v2/people" '/')[1 + 1]? ∧
    ((pySplit "x/v2/people" '/')[1 + 1]?).isSome :=
  (claim_C1 { id := "a", path := "x/v2/people", description := "A person" }).2
    (by decide) 1 (by decide)

/-- C2: in a successful run, every produced endpoint's description is
exactly the dictionary entry for its edge's head id, and that entry
is the description of a fetched non-organization vertex document
whose id is the head id; and when a non-organization edge's head id
has no dictionary entry, the edge pass fails (`KeyError`) instead of
substituting a value. -/
theorem claim_C2 (fetch : String → VertexDoc) (vs : List VertexStub)
    (ms : List ModelSpec) (dict : String → Option String)
    (hv : processVertices fetch vs [] (fun _ => none) = some (ms, dict)) :
    (∀ (es : List Edge) (eps : List EndpointSpec),
      processEdges dict es [] = some eps →
      ∀ ep ∈ eps, ∃ e ∈ es, e.headId ≠ "organization" ∧
        dict e.headId = some ep.description ∧
        ∃ v ∈ vs, v.id ≠ "organization" ∧ (fetch v.id).id = e.headId ∧
          (fetch v.id).description = ep.description) ∧
    (∀ es : List Edge,
      (∃ e ∈ es, e.headId ≠ "organization" ∧ dict e.headId = none) →
      processEdges dict es [] = none) := by
  constructor
  · intro es eps hpe ep hep
    rw [processEdges_eq dict es [] eps hpe] at hep
    simp only [List.nil_append] at hep
    obtain ⟨e, hef, hee⟩ := List.mem_map.mp hep
    have hmem := List.mem_filter.mp hef
    have horg : e.headId ≠ "organization" := by simpa using hmem.2
    obtain ⟨dsc, hdsc⟩ := processEdges_success_dict dict es [] eps hpe e hmem.1 horg
    have hdesc : ep.description = dsc := by
      rw [← hee]
      simp [endpointOf, hdsc]
    refine ⟨e, hmem.1, horg, by rw [hdsc, hdesc], ?_⟩
    have hvd := processVertices_dict fetch vs [] (fun _ => none) ms dict hv
      e.headId dsc hdsc
    cases hvd with
    | inl habs => exact absurd habs (by simp)
    | inr hex =>
      obtain ⟨v, hvv, hvo, hvk, hvdd⟩ := hex
      exact ⟨v, hvv, hvo, hvk, by rw [hvdd, hdesc]⟩
  · intro es hex
    exact processEdges_missing dict es [] hex

/-- C2 witness: on the example graph the endpoint `ListPeople`
resolves its description through the dictionary entry for head id
`a`; an edge whose head id `b` has no entry makes the edge pass
fail. -/
theorem claim_C2_witness :
    (∃ e ∈ wedges, e.headId ≠ "organization" ∧ wdict e.headId = some "A person" ∧
      ∃ v ∈ wstubs, v.id ≠ "organization" ∧ (wfetch v.id).id = e.headId ∧
        (wfetch v.id).description = "A person") ∧
    processEdges wdict [{ name := "void", headId := "b" }] [] = none := by
  constructor
  · exact (claim_C2 wfetch wstubs wmodels wdict rfl).1 wedges weps rfl
      { name := "ListPeople", description := "A person" } (by decide)
  · exact (claim_C2 wfetch wstubs wmodels wdict rfl).2
      [{ name := "void", headId := "b" }]
      ⟨{ name := "void", headId := "b" }, by decide, by decide, rfl⟩

/-- C3: the models list is exactly the non-organization vertex stubs,
in declaration order, mapped to their model entries (no sorting, no
deduplication), and the endpoints list is exactly the
non-organization outbound edges, in declaration order, mapped to
their endpoint entries. -/
theorem claim_C3 (fetch : String → VertexDoc) (vs : List VertexStub) (es : List Edge)
    (ms : List ModelSpec) (dict : String → Option String)
    (hv : processVertices fetch vs [] (fun _ => none) = some (ms, dict)) :
    ms = (vs.filter fun v => v.id != "organization").map (modelOf fetch) ∧
    ∀ eps, processEdges dict es [] = some eps →
      eps = (es.filter fun e => e.headId != "organization").map (endpointOf dict) := by
  constructor
  · have h := processVertices_models fetch vs [] (fun _ => none) ms dict hv
    simpa using h
  · intro eps h
    have h2 := processEdges_eq dict es [] eps h
    simpa using h2

/-- C3 witness: the example graph's outputs are literally the
filter-and-map of its declarations. -/
theorem claim_C3_witness :
    wmodels = (wstubs.filter fun v => v.id != "organization").map (modelOf wfetch) ∧
    weps = (wedges.filter fun e => e.headId != "organization").map (endpointOf wdict) := by
  have h := claim_C3 wfetch wstubs wedges wmodels wdict rfl
  exact ⟨h.1, h.2 weps rfl⟩

/-- C4: every produced model entry comes from a vertex stub whose id
is not `organization`, and every produced endpoint entry comes from
an edge whose head id is not `organization`. -/
theorem claim_C4 (fetch : String → VertexDoc) (vs : List VertexStub) (es : List Edge)
    (ms : List ModelSpec) (dict : String → Option String) (eps : List EndpointSpec)
    (hv : processVertices fetch vs [] (fun _ => none) = some (ms, dict))
    (he : processEdges dict es [] = some eps) :
    (∀ m ∈ ms, ∃ v ∈ vs, v.id ≠ "organization" ∧ m = modelOf fetch v) ∧
    (∀ ep ∈ eps, ∃ e ∈ es, e.headId ≠ "organization" ∧ ep = endpointOf dict e) := by
  constructor
  · intro m hm
    rw [processVertices_models fetch vs [] (fun _ => none) ms dict hv] at hm
    simp only [List.nil_append] at hm
    obtain ⟨v, hvf, hvm⟩ := List.mem_map.mp hm
    have hmem := List.mem_filter.mp hvf
    exact ⟨v, hmem.1, by simpa using hmem.2, hvm.symm⟩
  · intro ep hep
    rw [processEdges_eq dict es [] eps he] at hep
    simp only [List.nil_append] at hep
    obtain ⟨e, hef, hee⟩ := List.mem_map.mp hep
    have hmem := List.mem_filter.mp hef
    exact ⟨e, hmem.1, by simpa using hmem.2, hee.symm⟩

/-- C4 witness: the example model entry originates from the
non-organization stub `a`. -/
theorem claim_C4_witness :
    ∃ v ∈ wstubs, v.id ≠ "organization" ∧
      ({ name := "People", endpoint := "people", description := "A person" } : ModelSpec) =
        modelOf wfetch v :=
  (claim_C4 wfetch wstubs wedges wmodels wdict weps rfl rfl).1
    { name := "People", endpoint := "people", description := "A person" } (by decide)

/-- C5: on every delimiter-separated identifier — a nonempty string
not ending with the delimiter, for a delimiter (such as `_` or `-`)
that is not the uppercase form of another character — the formatter
returns the pascal-case form: first character and each character
after a delimiter occurrence uppercased, all delimiters removed; in
particular `check-ins ↦ CheckIns` and `list_people ↦ ListPeople`. -/
theorem claim_C5 :
    (∀ (d : Char) (s : String), (∀ a, Char.toUpper a = d ↔ a = d) →
      s.toList ≠ [] → s.toList.getLast? ≠ some d →
      underscore_to_camelcase s d = some (String.mk (pascalSpec d true s.toList))) ∧
    underscore_to_camelcase "check-ins" '-' = some "CheckIns" ∧
    underscore_to_camelcase "list_people" '_' = some "ListPeople" := by
  refine ⟨?_, by decide, by decide⟩
  intro d s hd hne hlast
  rw [underscore_to_camelcase, camelList_pascalSpec d hd s.toList hne hlast]
  rfl

/-- C5 witness: the pascal form of `list_people` under the default
delimiter. -/
theorem claim_C5_witness :
    underscore_to_camelcase "list_people" '_' =
      some (String.mk (pascalSpec '_' true "list_people".toList)) :=
  claim_C5.1 '_' "list_people" toUpper_eq_underscore (by decide) (by decide)

/-- C6: the app resolver fails exactly when no path segment equals
`v2`; when the first `v2` is at index `i + 1`, it returns the
segment at index `i` — the one immediately preceding `v2`. -/
theorem claim_C6 (doc_url : String) :
    (resolveApp doc_url = none ↔ ¬ "v2" ∈ pySplit doc_url '/') ∧
    ∀ i, listIndex "v2" (pySplit doc_url '/') = some (i + 1) →
      resolveApp doc_url = (pySplit doc_url '/')[i]? ∧
      ((pySplit doc_url '/')[i]?).isSome := by
  constructor
  · rw [resolveApp]
    cases hidx : listIndex "v2" (pySplit doc_url '/') with
    | none =>
      exact iff_of_true rfl (listIndex_eq_none_iff.mp hidx)
    | some i =>
      dsimp only
      obtain ⟨z, hz⟩ := pyGet_pred_isSome (listIndex_lt_length hidx)
      have hv2 : "v2" ∈ pySplit doc_url '/' := by
        have hg := listIndex_get hidx
        obtain ⟨hlt, hEq⟩ := List.getElem?_eq_some.mp hg
        rw [← hEq]
        exact List.getElem_mem hlt
      exact iff_of_false (by rw [hz]; simp) (fun hcontra => hcontra hv2)
  · intro i hidx
    have hi := listIndex_lt_length hidx
    constructor
    · rw [resolveApp]
      rw [hidx]
      dsimp only
      have h0 : ((i + 1 : Nat) : Int) - 1 = (i : Int) := by push_cast; ring
      rw [h0, pyGet_natCast]
    · rw [List.getElem?_eq_getElem (by omega)]
      rfl

/-- C6 witness: the resolver extracts `x` from `x/v2/doc` and fails
on a URL without a `v2` segment. -/
theorem claim_C6_witness :
    (resolveApp "x/v2/doc" = (pySplit "x/v2/doc" '/')[0]? ∧
      ((pySplit "x/v2/doc" '/')[0]?).isSome) ∧
    (resolveApp "nope" = none ↔ ¬ "v2" ∈ pySplit "nope" '/') :=
  ⟨(claim_C6 "x/v2/doc").2 0 (by decide), (claim_C6 "nope").1⟩

/-- C7 (counterexample to the claim as stated): the nonempty input
`a_` makes the formatter raise an uncaught `IndexError` (it returns
no value) — after deleting the trailing delimiter, the uppercase
step reads past the end of the list. -/
theorem claim_C7_counterexample :
    ("a_" : String) ≠ "" ∧ underscore_to_camelcase "a_" '_' = none :=
  ⟨by decide, by decide⟩

/-- C7 (amended): the formatter terminates normally and returns a
string on every nonempty input whose final character is not the
delimiter (delimiter `_` or `-`, or any character that is not the
uppercase form of another); in particular runs of consecutive
delimiters inside the string are collapsed without error.  Inputs
ending with the delimiter instead raise an uncaught `IndexError`. -/
theorem claim_C7 (d : Char) (s : String)
    (hd : ∀ a, Char.toUpper a = d ↔ a = d)
    (hne : s.toList ≠ []) (hlast : s.toList.getLast? ≠ some d) :
    (underscore_to_camelcase s d).isSome := by
  rw [underscore_to_camelcase, camelList_pascalSpec d hd s.toList hne hlast]
  rfl

/-- C7 witness: `a__b`, which contains consecutive delimiters, is
formatted without error. -/
theorem claim_C7_witness : (underscore_to_camelcase "a__b" '_').isSome :=
  claim_C7 '_' "a__b" toUpper_eq_underscore (by decide) (by decide)

/-- C8: on the empty string the formatter fails — `string[0]` raises
at once, the precondition violation the spec labels
`InvalidArgument` — rather than returning any value. -/
theorem claim_C8 (d : Char) : underscore_to_camelcase "" d = none := rfl

/-- C9: when the vertex pass succeeds but the edge pass fails (for
example a missing head-id description), `generate`'s trace contains
exactly the model-file write: the model file has already been fully
overwritten although no endpoint file is written — the two outputs
are not written atomically as a pair. -/
theorem claim_C9 (fetch : String → VertexDoc)
    (renderModels : String → List ModelSpec → String)
    (renderEndpoints : String → List EndpointSpec → String)
    (sep doc_url endpoint_path model_path : String) (root : RootDoc)
    (app : String) (ms : List ModelSpec) (dict : String → Option String) (appC : String)
    (h1 : resolveApp doc_url = some app)
    (h2 : processVertices fetch root.vertices [] (fun _ => none) = some (ms, dict))
    (h3 : underscore_to_camelcase app '-' = some appC)
    (h4 : processEdges dict root.outboundEdges [] = none) :
    generate fetch renderModels renderEndpoints sep doc_url endpoint_path model_path root =
      ([Event.writeFile (model_path ++ sep ++ pyReplace app '-' '_' ++ ".py")
          (renderModels appC ms)], false) := by
  rw [generate, h1]
  dsimp only
  rw [h2]
  dsimp only
  rw [h3]
  dsimp only
  rw [h4]

/-- C9 witness: a graph whose only edge has an unknown head id makes
`generate` fail after having written the model file only. -/
theorem claim_C9_witness :
    generate (fun _ => { id := "", path := "", description := "" })
      (fun _ _ => "M") (fun _ _ => "E") "/" "x/v2/d" "ep" "mp"
      { vertices := [], outboundEdges := [{ name := "list_people", headId := "b" }] } =
      ([Event.writeFile "mp/x.py" "M"], false) := by
  exact claim_C9 (fun _ => { id := "", path := "", description := "" })
    (fun _ _ => "M") (fun _ _ => "E") "/" "x/v2/d" "ep" "mp"
    { vertices := [], outboundEdges := [{ name := "list_people", headId := "b" }] }
    "x" [] (fun _ => none) "X" (by decide) rfl (by decide) (by decide)

/-- C10: when `v2` is the first path segment, the resolver does not
fail: the index expression is `-1`, which Python reads as the final
path segment. -/
theorem claim_C10 (doc_url : String) (rest : List String)
    (h : pySplit doc_url '/' = "v2" :: rest) :
    resolveApp doc_url = (pySplit doc_url '/').getLast? ∧
    ((pySplit doc_url '/').getLast?).isSome := by
  have hidx : listIndex "v2" (pySplit doc_url '/') = some 0 := by
    rw [h, listIndex, if_pos rfl]
  have hlen : 0 < (pySplit doc_url '/').length := by rw [h]; simp
  constructor
  · rw [resolveApp]
    rw [hidx]
    dsimp only
    have h0 : ((0 : Nat) : Int) - 1 = -1 := by decide
    rw [h0, pyGet_neg_one _ hlen, List.getLast?_eq_getElem?]
  · rw [List.getLast?_eq_getElem?, List.getElem?_eq_getElem (by omega)]
    rfl

/-- C10 witness: the resolver on `v2/doc` returns the last segment
`doc`. -/
theorem claim_C10_witness :
    resolveApp "v2/doc" = (pySplit "v2/doc" '/').getLast? ∧
    ((pySplit "v2/doc" '/').getLast?).isSome :=
  claim_C10 "v2/doc" ["doc"] (by decide)

end Pypco
